import Mathlib

/-!
Verification of the `lde` length disassembler engine.

The definitions below are a shallow embedding of `src/lde/x86.rs`
(the 32-bit x86 instruction-length decode engine) and of the
length-disassembler iterator of `src/lib.rs` / `src/iter.rs`.
Byte slices are modelled as `List Nat` (each element a byte value),
machine integers as `Nat` with explicit `% 2 ^ 32` at the one place
the source performs a wrapping cast (the pointer difference cast
`as u32` when the total is assembled).
-/

namespace Lde

/-- `TABLE_PREFIX` of `x86.rs`: legacy prefix bytes
(26 2E 36 3E, 64 65 66 67, 9B, F0 F2 F3), packed 32 bits per row. -/
def TABLE_PFX : List Nat :=
  [0x00000000, 0x02020202, 0x00000000, 0x0F000000,
   0x00000010, 0x00000000, 0x00000000, 0x0000B000]

/-- `TABLE_MODRM_A` of `x86.rs`: one-byte opcodes followed by a ModRM byte. -/
def TABLE_MODRM_A : List Nat :=
  [0xF0F0F0F0, 0xF0F0F0F0, 0x00000000, 0x30500000,
   0xFFFF0000, 0x00000000, 0xCF00F0FF, 0x00000303]

/-- `TABLE_IMM8_A` of `x86.rs`: one-byte opcodes carrying an 8-bit immediate. -/
def TABLE_IMM8_A : List Nat :=
  [0x08080808, 0x08080808, 0x00000000, 0x0030FFFF,
   0xB0000000, 0x0080FF00, 0xC2840C00, 0xFF100000]

/-- `TABLE_IMM_A` of `x86.rs`: one-byte opcodes carrying a default-width immediate. -/
def TABLE_IMM_A : List Nat :=
  [0x04040404, 0x04040404, 0x00000000, 0x00C00000,
   0x40000020, 0x004000FF, 0x01000000, 0x00E00000]

/-- `TABLE_MODRM_B` of `x86.rs`: two-byte (0F-escaped) opcodes followed by ModRM. -/
def TABLE_MODRM_B : List Nat :=
  [0xF004FFFF, 0x00FF0000, 0xFFFFFFFF, 0xFFFF8EFF,
   0x0000FFFF, 0x1C1FFFBF, 0xFF00FFFF, 0xFFFFFFFF]

/-- `TABLE_INVALID_B` of `x86.rs`: invalid two-byte (0F-escaped) opcodes. -/
def TABLE_INVALID_B : List Nat :=
  [0x08290000, 0x050002FF, 0x00000000, 0x00000030,
   0x00000000, 0x03000000, 0x00000000, 0x00000001]

/-- `TABLE_INVALID_C` of `x86.rs`: invalid three-byte (0F 38 escaped) opcodes
below 0x40 (two packed rows, per the `[u32; 2]` impl of `Contains`). -/
def TABLE_INVALID_C : List Nat :=
  [0x000F72F1, 0x030F0200]

/-- `Contains for [u32; 8]` of `lde/mod.rs`:
`(self[(val >> 5) & 7] & (0x80000000 >> (val & 0x1F))) != 0`. -/
def tblHas (t : List Nat) (v : Nat) : Bool :=
  (t.getD ((v >>> 5) &&& 7) 0) &&& (0x80000000 >>> (v &&& 0x1F)) != 0

/-- `Contains for [u32; 2]` of `lde/mod.rs`: as `tblHas` but false from 0x40 up. -/
def tbl2Has (t : List Nat) (v : Nat) : Bool :=
  if v < 0x40 then (t.getD ((v >>> 5) &&& 7) 0) &&& (0x80000000 >>> (v &&& 0x1F)) != 0
  else false

/-- `Contains for Range<u8>` of `lde/mod.rs`:
`val.wrapping_sub(start) < end.wrapping_sub(start)` in 8-bit arithmetic. -/
def rangeHas (s e v : Nat) : Bool :=
  (v + 256 - s) % 256 < (e + 256 - s) % 256

/-- The prefix loop of `lde_int` (x86.rs lines 97-109): consume legacy
prefixes, updating the default immediate width `ddef` on 0x66 and the
default address width `mdef` on 0x67; the first non-prefix byte is
consumed and returned as the opcode. `none` when the bytes run out. -/
def pfxStep : List Nat → Nat → Nat → Option (Nat × Nat × Nat × List Nat)
  | [], _, _ => none
  | op :: it, ddef, mdef =>
    if tblHas TABLE_PFX op then
      pfxStep it (if op == 0x66 then 2 else ddef) (if op == 0x67 then 2 else mdef)
    else
      some (op, ddef, mdef, it)

/-- Invalid test for three-byte opcodes 0F 38 xx (x86.rs line 117). -/
def invC (op : Nat) : Bool :=
  if op < 0x40 then tbl2Has TABLE_INVALID_C op
  else !(rangeHas 0x40 0x42 op || rangeHas 0x80 0x82 op || rangeHas 0xF0 0xF2 op)

/-- Invalid test for three-byte opcodes 0F 3A xx (x86.rs line 124). -/
def invD (op : Nat) : Bool :=
  !(rangeHas 0x08 0x10 op || rangeHas 0x14 0x18 op || rangeHas 0x20 0x23 op ||
    rangeHas 0x40 0x43 op || rangeHas 0x60 0x64 op)

/-- The `femms || bswap REG32` test of x86.rs line 145: two-byte opcodes
that add a fixed 2-byte extension to `dsize`. -/
def bswapFemms (op : Nat) : Bool :=
  op == 0x0E || rangeHas 0xC9 0xCF op

/-- Immediate bytes contributed by a two-byte (0F-escaped) opcode
(x86.rs lines 135-147). -/
def twoByteDs (op ddef : Nat) : Nat :=
  (if rangeHas 0x70 0x74 op || op == 0xA4 || op == 0xAC || op == 0xBA ||
      op == 0xC2 || rangeHas 0xC4 0xC7 op then 1 else 0) +
  (if op &&& 0xF0 == 0x80 then ddef else 0) +
  (if bswapFemms op then 2 else 0)

/-- Immediate contribution of the 0xF6/0xF7 `test` opcodes when the peeked
reg field (bits 3-5 of the next byte) is zero (x86.rs lines 153-156). -/
def testImm (op ddef pk : Nat) : Nat :=
  if pk &&& 0x38 == 0 then (if op &&& 1 == 1 then ddef else 1) else 0

/-- Immediate bytes contributed by a one-byte opcode, apart from the
peek-dependent 0xF6/0xF7 contribution (x86.rs lines 157-168). -/
def oneByteDs (op ddef : Nat) : Nat :=
  (if tblHas TABLE_IMM8_A op then 1 else 0) +
  (if op == 0x9A || op == 0xC2 || op == 0xC8 || op == 0xCA || op == 0xEA then 2 else 0) +
  (if tblHas TABLE_IMM_A op then ddef else 0)

/-- The `movabs` special case (x86.rs lines 169-172): opcodes 0xA0-0xA3
add `mdef` address bytes. -/
def oneByteMs (op mdef : Nat) : Nat :=
  if op &&& 0xFC == 0xA0 then mdef else 0

/-- Opcode dispatch of `lde_int` (x86.rs lines 111-173). Given the primary
opcode byte and the current defaults, returns the ModRM-required flag,
the immediate byte count `dsize`, the address byte count `msize`, and the
unconsumed remainder. `none` on invalid opcodes or exhausted bytes. -/
def opcodeStep (op ddef mdef : Nat) (it : List Nat) :
    Option (Bool × Nat × Nat × List Nat) :=
  if op == 0x0F then
    match it with
    | [] => none
    | op2 :: it2 =>
      if op2 == 0x38 then
        match it2 with
        | [] => none
        | op3 :: it3 => if invC op3 then none else some (true, 0, 0, it3)
      else if op2 == 0x3A then
        match it2 with
        | [] => none
        | op3 :: it3 => if invD op3 then none else some (true, 1, 0, it3)
      else if tblHas TABLE_INVALID_B op2 then none
      else some (tblHas TABLE_MODRM_B op2, twoByteDs op2 ddef, 0, it2)
  else
    if op == 0xF6 || op == 0xF7 then
      match it with
      | [] => none
      | pk :: _ =>
        some (tblHas TABLE_MODRM_A op,
              testImm op ddef pk + oneByteDs op ddef, oneByteMs op mdef, it)
    else
      some (tblHas TABLE_MODRM_A op, oneByteDs op ddef, oneByteMs op mdef, it)

/-- Displacement width selected by the ModRM mode field
(x86.rs lines 190-200), for a non-register-direct mode. -/
def dispSize (mode rm mdef : Nat) : Nat :=
  if mode == 0 then (if rm == 5 then 4 else 0)
  else if mode == 0x40 then 1
  else if mode == 0x80 then mdef
  else 0

/-- The ModRM step of `lde_int` (x86.rs lines 175-202): consume the ModRM
byte, a SIB byte when the bottom-3-bit field is 0b100 in a memory mode, and
account the displacement width. Returns the accumulated `msize` and rest. -/
def modrmStep (mdef : Nat) (it : List Nat) : Option (Nat × List Nat) :=
  match it with
  | [] => none
  | mb :: it1 =>
    if mb &&& 0xC0 == 0xC0 then some (0, it1)
    else if mb &&& 7 == 4 then
      match it1 with
      | [] => none
      | sib :: it2 =>
        some ((if mb &&& 0xC0 == 0 && sib &&& 7 == 5 then 4 else 0) +
              dispSize (mb &&& 0xC0) (mb &&& 7) mdef, it2)
    else some (dispSize (mb &&& 0xC0) (mb &&& 7) mdef, it1)

/-- Everything after the prefix loop: opcode dispatch followed by the ModRM
step when required. Returns `dsize`, `msize` and the unconsumed remainder. -/
def afterStep (op ddef mdef : Nat) (it : List Nat) : Option (Nat × Nat × List Nat) :=
  match opcodeStep op ddef mdef it with
  | none => none
  | some (modrm, ds, ms, it2) =>
    if modrm then
      match modrmStep mdef it2 with
      | none => none
      | some (ms2, it3) => some (ds, ms + ms2, it3)
    else some (ds, ms, it2)

/-- The consuming part of `lde_int`: prefixes (defaults start at 4/4), then
opcode dispatch and ModRM. `none` is the decode failure before the final
length assembly. -/
def ldeCore (b : List Nat) : Option (Nat × Nat × List Nat) :=
  match pfxStep b 4 4 with
  | none => none
  | some (op, ddef, mdef, it) => afterStep op ddef mdef it

/-- `lde_int` of `x86.rs` (lines 90-208). The consumed byte count is the
pointer difference of the source, cast `as u32` (hence `% 2 ^ 32`); the
immediates and displacement are added with `u32` wrapping; the result is
the total when it fits in the input, else the failure sentinel 0. -/
def lde_int (b : List Nat) : Nat :=
  match ldeCore b with
  | none => 0
  | some (ds, ms, rest) =>
    if ((b.length - rest.length) % 2 ^ 32 + ds + ms) % 2 ^ 32 ≤ b.length then
      ((b.length - rest.length) % 2 ^ 32 + ds + ms) % 2 ^ 32
    else 0

/-- Number of leading legacy-prefix bytes of a buffer. -/
def pfxCount (b : List Nat) : Nat :=
  (b.takeWhile (fun x => tblHas TABLE_PFX x)).length

/-- `consume` of `src/lib.rs` lines 257-262 and `src/iter.rs` lines 23-30:
clamp `n` to the remaining length, drop that many bytes, and advance the
virtual address (of bit width `w`, so addition wraps mod `2 ^ w`; the
`as_va` cast truncates the count to the address width first). -/
def ldeConsume (w : Nat) (bytes : List Nat) (va n : Nat) : List Nat × Nat :=
  let k := min n bytes.length
  (bytes.drop k, (va + k % 2 ^ w) % 2 ^ w)

/-- One pull of the iterator (`<LDE as Iterator>::next`, lib.rs lines
271-281, and `<Iter as Iterator>::next`, iter.rs lines 32-46): when the
decode engine `ld` returns a positive length, yield that many leading bytes
paired with the address before the advance, and consume them; otherwise
yield nothing. `fuel` bounds the recursion; any fuel larger than the buffer
length is enough for a length-bounded engine, since each step consumes at
least one byte. -/
def lderunF (ld : List Nat → Nat) (w : Nat) : Nat → List Nat → Nat → List (List Nat × Nat)
  | 0, _, _ => []
  | fuel + 1, bytes, va =>
    let len := ld bytes
    if 0 < len then
      let code := bytes.take len
      let st := ldeConsume w bytes va code.length
      (code, va) :: lderunF ld w fuel st.1 st.2
    else []

/-- Sum of the lengths of the opcode views yielded by an iterator run. -/
def sumLens (l : List (List Nat × Nat)) : Nat :=
  (l.map (fun p => p.1.length)).sum

end Lde

namespace Lde

/-- The prefix loop reads exactly the bytes it consumes: a successful run
decomposes the buffer as consumed prefixes, the opcode, and the rest, and
replaying on the same consumed bytes followed by anything reproduces the
same outcome. -/
theorem pfxStep_replay (b : List Nat) :
    ∀ d m op d' m' it, pfxStep b d m = some (op, d', m', it) →
      ∃ pre, b = pre ++ op :: it ∧
        ∀ l₂, pfxStep (pre ++ op :: l₂) d m = some (op, d', m', l₂) := by
  induction b with
  | nil => intro d m op d' m' it h; simp [pfxStep] at h
  | cons x xs ih =>
    intro d m op d' m' it h
    rw [pfxStep] at h
    by_cases hx : tblHas TABLE_PFX x = true
    · rw [if_pos hx] at h
      obtain ⟨pre, hdec, hrep⟩ := ih _ _ _ _ _ _ h
      refine ⟨x :: pre, by rw [hdec]; rfl, fun l₂ => ?_⟩
      rw [List.cons_append, pfxStep, if_pos hx]
      exact hrep l₂
    · rw [if_neg hx] at h
      simp only [Option.some.injEq, Prod.mk.injEq] at h
      obtain ⟨rfl, rfl, rfl, rfl⟩ := h
      exact ⟨[], rfl, fun l₂ => by rw [List.nil_append, pfxStep, if_neg hx]⟩

/-- The prefix loop keeps both default widths at most 4 (they start at 4
and are only ever set to 2). -/
theorem pfxStep_defs_le (b : List Nat) :
    ∀ d m op d' m' it, d ≤ 4 → m ≤ 4 →
      pfxStep b d m = some (op, d', m', it) → d' ≤ 4 ∧ m' ≤ 4 := by
  induction b with
  | nil => intro d m op d' m' it _ _ h; simp [pfxStep] at h
  | cons x xs ih =>
    intro d m op d' m' it hd hm h
    rw [pfxStep] at h
    by_cases hx : tblHas TABLE_PFX x = true
    · rw [if_pos hx] at h
      exact ih _ _ _ _ _ _ (by split <;> omega) (by split <;> omega) h
    · rw [if_neg hx] at h
      simp only [Option.some.injEq, Prod.mk.injEq] at h
      obtain ⟨rfl, rfl, rfl, rfl⟩ := h
      exact ⟨hd, hm⟩

/-- A successful prefix loop consumes exactly the leading prefix bytes
plus one opcode byte. -/
theorem pfxStep_len (b : List Nat) :
    ∀ d m op d' m' it, pfxStep b d m = some (op, d', m', it) →
      b.length = pfxCount b + 1 + it.length := by
  induction b with
  | nil => intro d m op d' m' it h; simp [pfxStep] at h
  | cons x xs ih =>
    intro d m op d' m' it h
    rw [pfxStep] at h
    by_cases hx : tblHas TABLE_PFX x = true
    · rw [if_pos hx] at h
      have := ih _ _ _ _ _ _ h
      have hc : pfxCount (x :: xs) = pfxCount xs + 1 := by
        simp [pfxCount, List.takeWhile_cons, hx]
      simp only [hc, List.length_cons]
      omega
    · rw [if_neg hx] at h
      simp only [Option.some.injEq, Prod.mk.injEq] at h
      obtain ⟨rfl, rfl, rfl, rfl⟩ := h
      have hc : pfxCount (x :: xs) = 0 := by
        simp [pfxCount, List.takeWhile_cons, hx]
      simp only [hc, List.length_cons]
      omega

/-- The ModRM step reads exactly the one or two bytes it consumes, and
replaying on them followed by anything reproduces the same `msize`. -/
theorem modrmStep_replay (m : Nat) (it : List Nat) (ms : Nat) (rest : List Nat)
    (h : modrmStep m it = some (ms, rest)) :
    ∃ mb pre, it = mb :: (pre ++ rest) ∧ pre.length ≤ 1 ∧
      ∀ l₂, modrmStep m (mb :: (pre ++ l₂)) = some (ms, l₂) := by
  match it with
  | [] => simp [modrmStep] at h
  | mb :: it1 =>
    simp only [modrmStep] at h
    by_cases hC0 : (mb &&& 0xC0 == 0xC0) = true
    · rw [if_pos hC0] at h
      simp only [Option.some.injEq, Prod.mk.injEq] at h
      obtain ⟨rfl, rfl⟩ := h
      exact ⟨mb, [], rfl, by simp, fun l₂ => by
        simp only [modrmStep, List.nil_append]; rw [if_pos hC0]⟩
    · rw [if_neg hC0] at h
      by_cases h4 : (mb &&& 7 == 4) = true
      · rw [if_pos h4] at h
        match it1 with
        | [] => simp at h
        | sib :: it2 =>
          simp only [Option.some.injEq, Prod.mk.injEq] at h
          obtain ⟨rfl, rfl⟩ := h
          exact ⟨mb, [sib], rfl, by simp, fun l₂ => by
            simp only [modrmStep, List.cons_append, List.nil_append]
            rw [if_neg hC0, if_pos h4]⟩
      · rw [if_neg h4] at h
        simp only [Option.some.injEq, Prod.mk.injEq] at h
        obtain ⟨rfl, rfl⟩ := h
        exact ⟨mb, [], rfl, by simp, fun l₂ => by
          simp only [modrmStep, List.nil_append]
          rw [if_neg hC0, if_neg h4]⟩

/-- The displacement width is at most `max 4 mdef`. -/
theorem dispSize_le (mode rm m : Nat) (hm : m ≤ 4) : dispSize mode rm m ≤ 4 := by
  rw [dispSize]; split_ifs <;> omega

/-- The ModRM step accounts at most 4 displacement bytes (the SIB
no-base displacement and a mode displacement never combine, because the
SIB case has bottom field 4, not 5). -/
theorem modrmStep_ms_le (m : Nat) (it : List Nat) (ms : Nat) (rest : List Nat)
    (hm : m ≤ 4) (h : modrmStep m it = some (ms, rest)) : ms ≤ 4 := by
  match it with
  | [] => simp [modrmStep] at h
  | mb :: it1 =>
    simp only [modrmStep] at h
    by_cases hC0 : (mb &&& 0xC0 == 0xC0) = true
    · rw [if_pos hC0] at h
      simp only [Option.some.injEq, Prod.mk.injEq] at h
      omega
    · rw [if_neg hC0] at h
      by_cases h4 : (mb &&& 7 == 4) = true
      · rw [if_pos h4] at h
        match it1 with
        | [] => simp at h
        | sib :: it2 =>
          simp only [Option.some.injEq, Prod.mk.injEq] at h
          obtain ⟨rfl, -⟩ := h
          have h4' : mb &&& 7 = 4 := by simpa using h4
          have hB : dispSize (mb &&& 0xC0) (mb &&& 7) m ≤ 4 := dispSize_le _ _ _ hm
          rcases hab : ((mb &&& 0xC0 == 0) && (sib &&& 7 == 5)) with _ | _
          · simp only [hab, Bool.false_eq_true, if_false, Nat.zero_add]
            exact hB
          · have hz' : mb &&& 0xC0 = 0 := by
              rcases hq : (mb &&& 0xC0 == 0) with _ | _
              · rw [hq] at hab; simp at hab
              · simpa using hq
            have hB0 : dispSize (mb &&& 0xC0) (mb &&& 7) m = 0 := by
              rw [hz', h4']; rfl
            simp [hab, hB0]
      · rw [if_neg h4] at h
        simp only [Option.some.injEq, Prod.mk.injEq] at h
        have := dispSize_le (mb &&& 0xC0) (mb &&& 7) m hm
        omega

/-- Immediate bound for two-byte opcodes: at most 1 + ddef + 2. -/
theorem twoByteDs_le (op d : Nat) (hd : d ≤ 4) : twoByteDs op d ≤ 7 := by
  rw [twoByteDs]; split_ifs <;> omega

/-- Immediate bound for one-byte opcodes. -/
theorem oneByteDs_le (op d : Nat) (hd : d ≤ 4) : oneByteDs op d ≤ 7 := by
  rw [oneByteDs]; split_ifs <;> omega

/-- The peek-dependent immediate is at most the default width. -/
theorem testImm_le (op d pk : Nat) (hd : d ≤ 4) : testImm op d pk ≤ 4 := by
  rw [testImm]; split_ifs <;> omega

/-- The `movabs` address bytes are at most the default address width. -/
theorem oneByteMs_le (op m : Nat) (hm : m ≤ 4) : oneByteMs op m ≤ 4 := by
  rw [oneByteMs]; split_ifs <;> omega

/-- `oneByteDs` is monotone in the default width. -/
theorem oneByteDs_mono (op d : Nat) (hd : d ≤ 4) : oneByteDs op d ≤ oneByteDs op 4 := by
  rw [oneByteDs, oneByteDs]; split_ifs <;> omega

/-- `oneByteMs` is monotone in the default width. -/
theorem oneByteMs_mono (op m : Nat) (hm : m ≤ 4) : oneByteMs op m ≤ oneByteMs op 4 := by
  rw [oneByteMs, oneByteMs]; split_ifs <;> omega

set_option maxRecDepth 4096 in
/-- Checked over all byte values: a one-byte opcode contributes at most 6
bytes of immediates plus `movabs` address bytes (the maximum is 0x9A,
`CALLF Ap`, with a 2-byte selector and a 4-byte offset). -/
theorem oneByte_dm_le : ∀ op < 256, oneByteDs op 4 + oneByteMs op 4 ≤ 6 := by decide

/-- 0xF6 contributes no table-driven immediates. -/
theorem oneByteDs_F6 (d : Nat) : oneByteDs 0xF6 d = 0 := rfl

/-- 0xF7 contributes no table-driven immediates. -/
theorem oneByteDs_F7 (d : Nat) : oneByteDs 0xF7 d = 0 := rfl

/-- Opcode dispatch on the two-byte escape with nothing after it fails. -/
theorem opcodeStep_0F_nil (d m : Nat) : opcodeStep 0x0F d m [] = none := rfl

/-- Opcode dispatch on 0F 38 with nothing after it fails. -/
theorem opcodeStep_38_nil (d m : Nat) : opcodeStep 0x0F d m [0x38] = none := rfl

/-- Opcode dispatch on 0F 3A with nothing after it fails. -/
theorem opcodeStep_3A_nil (d m : Nat) : opcodeStep 0x0F d m [0x3A] = none := rfl

/-- A valid 0F 38 three-byte opcode: ModRM required, no immediates. -/
theorem opcodeStep_38 (d m op3 : Nat) (itB : List Nat) (hinv : invC op3 = false) :
    opcodeStep 0x0F d m (0x38 :: op3 :: itB) = some (true, 0, 0, itB) := by
  simp [opcodeStep, hinv]

/-- A valid 0F 3A three-byte opcode: ModRM required, one immediate byte. -/
theorem opcodeStep_3A (d m op3 : Nat) (itB : List Nat) (hinv : invD op3 = false) :
    opcodeStep 0x0F d m (0x3A :: op3 :: itB) = some (true, 1, 0, itB) := by
  simp [opcodeStep, hinv]

/-- A valid plain two-byte opcode: ModRM per table, immediates per
`twoByteDs`; the remainder is untouched. -/
theorem opcodeStep_2B (d m op2 : Nat) (itA : List Nat) (h38 : ¬op2 = 0x38)
    (h3A : ¬op2 = 0x3A) (hinvB : tblHas TABLE_INVALID_B op2 = false) :
    opcodeStep 0x0F d m (op2 :: itA) =
      some (tblHas TABLE_MODRM_B op2, twoByteDs op2 d, 0, itA) := by
  simp [opcodeStep, h38, h3A, hinvB]

/-- 0xF6 with no byte to peek fails. -/
theorem opcodeStep_F6_nil (d m : Nat) : opcodeStep 0xF6 d m [] = none := rfl

/-- 0xF7 with no byte to peek fails. -/
theorem opcodeStep_F7_nil (d m : Nat) : opcodeStep 0xF7 d m [] = none := rfl

/-- 0xF6 peeks the next byte without consuming it: ModRM required, a 1-byte
immediate exactly when the peeked reg field is zero. -/
theorem opcodeStep_F6 (d m pk : Nat) (t : List Nat) :
    opcodeStep 0xF6 d m (pk :: t) = some (true, testImm 0xF6 d pk, 0, pk :: t) := rfl

/-- 0xF7 peeks the next byte without consuming it: ModRM required, a
`ddef`-byte immediate exactly when the peeked reg field is zero. -/
theorem opcodeStep_F7 (d m pk : Nat) (t : List Nat) :
    opcodeStep 0xF7 d m (pk :: t) = some (true, testImm 0xF7 d pk, 0, pk :: t) := rfl

/-- Any other one-byte opcode consumes nothing further at dispatch time. -/
theorem opcodeStep_1B (op d m : Nat) (it : List Nat) (h0F : ¬op = 0x0F)
    (hF6 : ¬op = 0xF6) (hF7 : ¬op = 0xF7) :
    opcodeStep op d m it =
      some (tblHas TABLE_MODRM_A op, oneByteDs op d, oneByteMs op m, it) := by
  simp [opcodeStep, h0F, hF6, hF7]

/-- Destructor: a successful `afterStep` splits per the ModRM flag. -/
theorem afterStep_dest {op d m : Nat} {it itv : List Nat} {modrmv : Bool}
    {dsv msv ds ms : Nat} {rest : List Nat}
    (hop : opcodeStep op d m it = some (modrmv, dsv, msv, itv))
    (h : afterStep op d m it = some (ds, ms, rest)) :
    (modrmv = false ∧ dsv = ds ∧ msv = ms ∧ itv = rest) ∨
    (modrmv = true ∧ ∃ ms2, modrmStep m itv = some (ms2, rest) ∧
      dsv = ds ∧ msv + ms2 = ms) := by
  simp only [afterStep, hop] at h
  cases modrmv with
  | false =>
    simp only [Bool.false_eq_true, if_false, Option.some.injEq, Prod.mk.injEq] at h
    exact Or.inl ⟨rfl, h.1, h.2.1, h.2.2⟩
  | true =>
    simp only [if_true] at h
    cases hmr : modrmStep m itv with
    | none => rw [hmr] at h; simp at h
    | some p =>
      obtain ⟨ms2, it3⟩ := p
      rw [hmr] at h
      simp only [Option.some.injEq, Prod.mk.injEq] at h
      obtain ⟨hds, hms, hrest⟩ := h
      subst hrest
      exact Or.inr ⟨rfl, ms2, rfl, hds, hms⟩

/-- Builder: no ModRM required. -/
theorem afterStep_mk_false {op d m : Nat} {L Lv : List Nat} {dsv msv : Nat}
    (hop : opcodeStep op d m L = some (false, dsv, msv, Lv)) :
    afterStep op d m L = some (dsv, msv, Lv) := by
  simp [afterStep, hop]

/-- Builder: ModRM required and present. -/
theorem afterStep_mk_true {op d m : Nat} {L Lv Lw : List Nat} {dsv msv ms2 : Nat}
    (hop : opcodeStep op d m L = some (true, dsv, msv, Lv))
    (hmr : modrmStep m Lv = some (ms2, Lw)) :
    afterStep op d m L = some (dsv, msv + ms2, Lw) := by
  simp [afterStep, hop, hmr]

/-- Anatomy of a successful decode after the prefix loop: the engine reads
exactly the bytes it consumes (replaying them followed by anything gives the
same result), the immediate and address byte counts total at most 23, and
for byte-valued opcodes the consumed-plus-extra total is at most 14. -/
theorem afterStep_anatomy (op d m : Nat) (it : List Nat) (ds ms : Nat) (rest : List Nat)
    (hd : d ≤ 4) (hm : m ≤ 4)
    (h : afterStep op d m it = some (ds, ms, rest)) :
    ∃ pre, it = pre ++ rest ∧
      (∀ l₂, afterStep op d m (pre ++ l₂) = some (ds, ms, l₂)) ∧
      ds + ms ≤ 23 ∧
      (op < 256 → pre.length + ds + ms ≤ 14) := by
  by_cases h0F : op = 0x0F
  · subst h0F
    match it with
    | [] => simp [afterStep, opcodeStep_0F_nil] at h
    | op2 :: itA =>
      by_cases h38 : op2 = 0x38
      · subst h38
        match itA with
        | [] => simp [afterStep, opcodeStep_38_nil] at h
        | op3 :: itB =>
          rcases hinv : invC op3 with _ | _
          · have hop := opcodeStep_38 d m op3 itB hinv
            rcases afterStep_dest hop h with ⟨hfalse, -, -, -⟩ | ⟨-, ms2, hmr, rfl, rfl⟩
            · exact absurd hfalse (by simp)
            · obtain ⟨mb, pre2, hdec2, hlen2, hrep2⟩ :=
                modrmStep_replay m itB ms2 rest hmr
              have hms2 := modrmStep_ms_le m itB ms2 rest hm hmr
              subst hdec2
              refine ⟨0x38 :: op3 :: mb :: pre2, by simp, fun l₂ => ?_, by omega,
                fun _ => ?_⟩
              · have heq : (0x38 :: op3 :: mb :: pre2) ++ l₂ =
                    0x38 :: op3 :: mb :: (pre2 ++ l₂) := by simp
                rw [heq]
                exact afterStep_mk_true
                  (opcodeStep_38 d m op3 (mb :: (pre2 ++ l₂)) hinv) (hrep2 l₂)
              · simp only [List.length_cons]
                omega
          · simp [afterStep, opcodeStep, hinv] at h
      · by_cases h3A : op2 = 0x3A
        · subst h3A
          match itA with
          | [] => simp [afterStep, opcodeStep_3A_nil] at h
          | op3 :: itB =>
            rcases hinv : invD op3 with _ | _
            · have hop := opcodeStep_3A d m op3 itB hinv
              rcases afterStep_dest hop h with ⟨hfalse, -, -, -⟩ | ⟨-, ms2, hmr, rfl, rfl⟩
              · exact absurd hfalse (by simp)
              · obtain ⟨mb, pre2, hdec2, hlen2, hrep2⟩ :=
                  modrmStep_replay m itB ms2 rest hmr
                have hms2 := modrmStep_ms_le m itB ms2 rest hm hmr
                subst hdec2
                refine ⟨0x3A :: op3 :: mb :: pre2, by simp, fun l₂ => ?_, by omega,
                  fun _ => ?_⟩
                · have heq : (0x3A :: op3 :: mb :: pre2) ++ l₂ =
                      0x3A :: op3 :: mb :: (pre2 ++ l₂) := by simp
                  rw [heq]
                  exact afterStep_mk_true
                    (opcodeStep_3A d m op3 (mb :: (pre2 ++ l₂)) hinv) (hrep2 l₂)
                · simp only [List.length_cons]
                  omega
            · simp [afterStep, opcodeStep, h38, hinv] at h
        · rcases hinvB : tblHas TABLE_INVALID_B op2 with _ | _
          · have hop := opcodeStep_2B d m op2 itA h38 h3A hinvB
            rcases afterStep_dest hop h with ⟨hmv, rfl, rfl, rfl⟩ |
              ⟨hmv, ms2, hmr, rfl, rfl⟩
            · refine ⟨[op2], rfl, fun l₂ => ?_, ?_, fun _ => ?_⟩
              · have hop' := opcodeStep_2B d m op2 l₂ h38 h3A hinvB
                rw [hmv] at hop'
                exact afterStep_mk_false hop'
              · have := twoByteDs_le op2 d hd; omega
              · simp only [List.length_cons, List.length_nil]
                have := twoByteDs_le op2 d hd; omega
            · obtain ⟨mb, pre2, hdec2, hlen2, hrep2⟩ :=
                modrmStep_replay m itA ms2 rest hmr
              have hms2 := modrmStep_ms_le m itA ms2 rest hm hmr
              subst hdec2
              refine ⟨op2 :: mb :: pre2, by simp, fun l₂ => ?_, ?_, fun _ => ?_⟩
              · have heq : (op2 :: mb :: pre2) ++ l₂ = op2 :: mb :: (pre2 ++ l₂) := by
                  simp
                rw [heq]
                have hop' := opcodeStep_2B d m op2 (mb :: (pre2 ++ l₂)) h38 h3A hinvB
                rw [hmv] at hop'
                exact afterStep_mk_true hop' (hrep2 l₂)
              · have := twoByteDs_le op2 d hd; omega
              · simp only [List.length_cons]
                have := twoByteDs_le op2 d hd; omega
          · simp [afterStep, opcodeStep, h38, h3A, hinvB] at h
  · by_cases hF6 : op = 0xF6
    · subst hF6
      match it with
      | [] => simp [afterStep, opcodeStep_F6_nil] at h
      | pk :: t =>
        have hop := opcodeStep_F6 d m pk t
        rcases afterStep_dest hop h with ⟨hfalse, -, -, -⟩ | ⟨-, ms2, hmr, rfl, rfl⟩
        · exact absurd hfalse (by simp)
        · obtain ⟨mb, pre2, hdec2, hlen2, hrep2⟩ :=
            modrmStep_replay m (pk :: t) ms2 rest hmr
          have hms2 := modrmStep_ms_le m (pk :: t) ms2 rest hm hmr
          injection hdec2 with hmb ht
          subst hmb
          subst ht
          have hti := testImm_le 0xF6 d pk hd
          refine ⟨pk :: pre2, by simp, fun l₂ => ?_, by omega, fun _ => ?_⟩
          · have heq : (pk :: pre2) ++ l₂ = pk :: (pre2 ++ l₂) := by simp
            rw [heq]
            exact afterStep_mk_true (opcodeStep_F6 d m pk (pre2 ++ l₂)) (hrep2 l₂)
          · simp only [List.length_cons]
            omega
    · by_cases hF7 : op = 0xF7
      · subst hF7
        match it with
        | [] => simp [afterStep, opcodeStep_F7_nil] at h
        | pk :: t =>
          have hop := opcodeStep_F7 d m pk t
          rcases afterStep_dest hop h with ⟨hfalse, -, -, -⟩ | ⟨-, ms2, hmr, rfl, rfl⟩
          · exact absurd hfalse (by simp)
          · obtain ⟨mb, pre2, hdec2, hlen2, hrep2⟩ :=
              modrmStep_replay m (pk :: t) ms2 rest hmr
            have hms2 := modrmStep_ms_le m (pk :: t) ms2 rest hm hmr
            injection hdec2 with hmb ht
            subst hmb
            subst ht
            have hti := testImm_le 0xF7 d pk hd
            refine ⟨pk :: pre2, by simp, fun l₂ => ?_, by omega, fun _ => ?_⟩
            · have heq : (pk :: pre2) ++ l₂ = pk :: (pre2 ++ l₂) := by simp
              rw [heq]
              exact afterStep_mk_true (opcodeStep_F7 d m pk (pre2 ++ l₂)) (hrep2 l₂)
            · simp only [List.length_cons]
              omega
      · have hop := opcodeStep_1B op d m it h0F hF6 hF7
        rcases afterStep_dest hop h with ⟨hmv, rfl, rfl, rfl⟩ |
          ⟨hmv, ms2, hmr, rfl, rfl⟩
        · refine ⟨[], rfl, fun l₂ => ?_, ?_, fun hop256 => ?_⟩
          · have hop' := opcodeStep_1B op d m l₂ h0F hF6 hF7
            rw [hmv] at hop'
            exact afterStep_mk_false hop'
          · have h1 := oneByteDs_le op d hd
            have h2 := oneByteMs_le op m hm
            omega
          · have h1 := oneByteDs_mono op d hd
            have h2 := oneByteMs_mono op m hm
            have h3 := oneByte_dm_le op hop256
            simp only [List.length_nil]
            omega
        · obtain ⟨mb, pre2, hdec2, hlen2, hrep2⟩ := modrmStep_replay m it ms2 rest hmr
          have hms2 := modrmStep_ms_le m it ms2 rest hm hmr
          subst hdec2
          refine ⟨mb :: pre2, by simp, fun l₂ => ?_, ?_, fun hop256 => ?_⟩
          · have heq : (mb :: pre2) ++ l₂ = mb :: (pre2 ++ l₂) := by simp
            rw [heq]
            have hop' := opcodeStep_1B op d m (mb :: (pre2 ++ l₂)) h0F hF6 hF7
            rw [hmv] at hop'
            exact afterStep_mk_true hop' (hrep2 l₂)
          · have h1 := oneByteDs_le op d hd
            have h2 := oneByteMs_le op m hm
            omega
          · have h1 := oneByteDs_mono op d hd
            have h2 := oneByteMs_mono op m hm
            have h3 := oneByte_dm_le op hop256
            simp only [List.length_cons]
            omega

/-- Anatomy of a full successful decode: the engine reads exactly the
bytes it consumes, the non-consumed byte counts total at most 23, and for
byte-valued buffers everything beyond the leading prefix run totals at
most 15 (1 opcode byte + 14). -/
theorem ldeCore_anatomy (b : List Nat) (ds ms : Nat) (rest : List Nat)
    (h : ldeCore b = some (ds, ms, rest)) :
    ∃ pre, b = pre ++ rest ∧
      (∀ l₂, ldeCore (pre ++ l₂) = some (ds, ms, l₂)) ∧
      ds + ms ≤ 23 ∧
      ((∀ x ∈ b, x < 256) → pre.length + ds + ms ≤ pfxCount b + 15) := by
  simp only [ldeCore] at h
  cases hp : pfxStep b 4 4 with
  | none => rw [hp] at h; simp at h
  | some q =>
    obtain ⟨op, d', m', it⟩ := q
    rw [hp] at h
    obtain ⟨hd', hm'⟩ := pfxStep_defs_le b 4 4 op d' m' it (by omega) (by omega) hp
    obtain ⟨pre0, hdec0, hrep0⟩ := pfxStep_replay b 4 4 op d' m' it hp
    obtain ⟨pre1, hdec1, hrep1, hcrude, htight⟩ :=
      afterStep_anatomy op d' m' it ds ms rest hd' hm' h
    have hplen : b.length = pfxCount b + 1 + it.length :=
      pfxStep_len b 4 4 op d' m' it hp
    refine ⟨pre0 ++ op :: pre1, ?_, fun l₂ => ?_, hcrude, fun hb => ?_⟩
    · rw [hdec0, hdec1]; simp
    · have heq : (pre0 ++ op :: pre1) ++ l₂ = pre0 ++ op :: (pre1 ++ l₂) := by simp
      rw [heq]
      simp only [ldeCore, hrep0 (pre1 ++ l₂)]
      exact hrep1 l₂
    · have hlb : b.length = pre0.length + (1 + it.length) := by
        rw [hdec0]; simp only [List.length_append, List.length_cons]; omega
      have hop256 : op < 256 :=
        hb op (by rw [hdec0]; exact List.mem_append_right _ (List.mem_cons_self _ _))
      have ht := htight hop256
      have hit : it.length = pre1.length + rest.length := by rw [hdec1]; simp
      simp only [List.length_append, List.length_cons]
      omega

/-- A positive decode result comes from a successful core run whose
wrapped total equals the result and fits the buffer. -/
theorem lde_int_dest (b : List Nat) (L : Nat) (h : lde_int b = L) (hpos : 0 < L) :
    ∃ ds ms rest, ldeCore b = some (ds, ms, rest) ∧
      ((b.length - rest.length) % 2 ^ 32 + ds + ms) % 2 ^ 32 = L ∧ L ≤ b.length := by
  simp only [lde_int] at h
  cases hc : ldeCore b with
  | none => rw [hc] at h; simp at h; omega
  | some r =>
    obtain ⟨ds, ms, rest⟩ := r
    rw [hc] at h
    dsimp only at h
    split at h
    · exact ⟨ds, ms, rest, rfl, h, by omega⟩
    · omega

/-- `sumLens` of a cons. -/
theorem sumLens_cons (c : List Nat) (v : Nat) (t : List (List Nat × Nat)) :
    sumLens ((c, v) :: t) = c.length + sumLens t := by
  simp [sumLens]

/-- The lengths of the yielded views sum to at most the buffer length:
each step consumes from the buffer exactly what it yields. -/
theorem lderunF_sum_le (ld : List Nat → Nat) (w : Nat) :
    ∀ (fuel : Nat) (bytes : List Nat) (va : Nat),
      sumLens (lderunF ld w fuel bytes va) ≤ bytes.length := by
  intro fuel
  induction fuel with
  | zero => intro bytes va; simp [lderunF, sumLens]
  | succ f ih =>
    intro bytes va
    rw [lderunF]
    by_cases hl : 0 < ld bytes
    · rw [if_pos hl, sumLens_cons]
      have hdrop := ih ((ldeConsume w bytes va (bytes.take (ld bytes)).length).1)
        ((ldeConsume w bytes va (bytes.take (ld bytes)).length).2)
      have h1 : (bytes.take (ld bytes)).length = min (ld bytes) bytes.length :=
        List.length_take _ _
      have h2 : ((ldeConsume w bytes va (bytes.take (ld bytes)).length).1).length =
          bytes.length - min ((bytes.take (ld bytes)).length) bytes.length := by
        simp [ldeConsume]
      omega
    · rw [if_neg hl]; simp [sumLens]

/-- From a state where the engine reports failure, nothing is yielded,
regardless of how many bytes remain. -/
theorem lderunF_stop (ld : List Nat → Nat) (w fuel : Nat) (bytes : List Nat)
    (va : Nat) (h : ld bytes = 0) : lderunF ld w fuel bytes va = [] := by
  cases fuel with
  | zero => rfl
  | succ f => rw [lderunF, if_neg (by omega)]

/-- The address yielded with the nth item is the starting address plus the
lengths of all previously yielded items, in the address arithmetic of the
`w`-bit virtual address type. -/
theorem lderunF_addr (ld : List Nat → Nat) (w : Nat) :
    ∀ (fuel : Nat) (bytes : List Nat) (va n : Nat) (item : List Nat × Nat),
      va < 2 ^ w →
      (lderunF ld w fuel bytes va).get? n = some item →
      item.2 = (va + sumLens ((lderunF ld w fuel bytes va).take n)) % 2 ^ w := by
  intro fuel
  induction fuel with
  | zero => intro bytes va n item hva hget; simp [lderunF] at hget
  | succ f ih =>
    intro bytes va n item hva hget
    rw [lderunF] at hget ⊢
    by_cases hl : 0 < ld bytes
    · rw [if_pos hl] at hget ⊢
      cases n with
      | zero =>
        simp only [List.get?_cons_zero] at hget
        obtain rfl : ((bytes.take (ld bytes)), va) = item := by simpa using hget
        simp [sumLens, Nat.mod_eq_of_lt hva]
      | succ k =>
        simp only [List.get?_cons_succ] at hget
        have hva' : (ldeConsume w bytes va (bytes.take (ld bytes)).length).2 < 2 ^ w := by
          simp only [ldeConsume]
          exact Nat.mod_lt _ (Nat.pos_pow_of_pos w (by omega))
        have hrec := ih _ _ k item hva' hget
        rw [List.take_succ_cons, sumLens_cons, hrec]
        have hcc : min ((bytes.take (ld bytes)).length) bytes.length =
            (bytes.take (ld bytes)).length := by
          rw [List.length_take]; omega
        simp only [ldeConsume, hcc]
        conv_lhs => rw [Nat.mod_add_mod]
        rw [Nat.add_right_comm, Nat.add_mod_mod, Nat.add_assoc, Nat.add_comm _ (bytes.take (ld bytes)).length]
    · rw [if_neg hl] at hget; simp at hget

/-- Sanity: the unit tests of `x86.rs` (`mod tests`), reproduced on the model. -/
theorem lde_int_units :
    lde_int [0x04, 0x2A] = 2 ∧
    lde_int [0x89, 0x5D, 0x2A] = 3 ∧
    lde_int [0x84, 0xC0] = 2 ∧
    lde_int [0xDD, 0x84, 0x00, 0x2A, 0x2A, 0x2A, 0x2A] = 7 ∧
    lde_int [0xBE, 0x2A, 0x2A, 0x2A, 0x2A] = 5 ∧
    lde_int [0x64, 0xA1, 0x2A, 0x2A, 0x2A, 0x2A] = 6 ∧
    lde_int [0x01, 0x05, 0x2A, 0x2A, 0x2A, 0x2A] = 6 ∧
    lde_int [0x67, 0xA1, 0x2A, 0x2A] = 4 ∧
    lde_int [0x67, 0x00, 0x80, 0x2A, 0x2A] = 5 ∧
    lde_int [0x40] = 1 ∧
    lde_int [0xC3] = 1 ∧
    lde_int [0x0F, 0x1F, 0x40, 0x00] = 4 ∧
    lde_int [0x66, 0x0F, 0x0D, 0x80, 0x2A, 0x2A, 0x2A, 0x2A] = 8 ∧
    lde_int [0x0F, 0xAE, 0x38] = 3 := by
  decide

/-- Unfold `ldeCore` through a known prefix-loop outcome. -/
theorem ldeCore_of_pfx (b : List Nat) (op d m : Nat) (it : List Nat)
    (hp : pfxStep b 4 4 = some (op, d, m, it)) :
    ldeCore b = afterStep op d m it := by
  simp only [ldeCore, hp]

/-- Unfold `lde_int` through a known core outcome. -/
theorem lde_int_of_core (b : List Nat) (ds ms : Nat) (rest : List Nat)
    (hc : ldeCore b = some (ds, ms, rest)) :
    lde_int b =
      if ((b.length - rest.length) % 2 ^ 32 + ds + ms) % 2 ^ 32 ≤ b.length then
        ((b.length - rest.length) % 2 ^ 32 + ds + ms) % 2 ^ 32
      else 0 := by
  simp only [lde_int, hc]

/-- The prefix loop turns a leading run of 0x66 bytes into consumed
prefixes once the immediate default is already 2. -/
theorem pfxStep_repl66 : ∀ (n : Nat) (l : List Nat) (m : Nat),
    pfxStep (List.replicate n 0x66 ++ l) 2 m = pfxStep l 2 m := by
  intro n
  induction n with
  | zero => intro l m; rfl
  | succ k ih =>
    intro l m
    rw [List.replicate_succ, List.cons_append, pfxStep,
      if_pos (show tblHas TABLE_PFX 0x66 = true from rfl)]
    exact ih l m

/-- C1: for every byte slice `b`, the x86 decode engine returns either the
failure sentinel 0 or a success length, and in both cases the value never
exceeds the length of `b` (the engine bounds-checks the total before
returning it). -/
theorem c1_decode_le_len (b : List Nat) : lde_int b ≤ b.length := by
  simp only [lde_int]
  cases hc : ldeCore b with
  | none => simp
  | some r =>
    obtain ⟨ds, ms, rest⟩ := r
    dsimp only
    split <;> omega

/-- C2: for every decode engine, address width, buffer and starting virtual
address, the iterator of `lib.rs`/`iter.rs` is sound: (1) the lengths of
all yielded opcode views sum to at most the buffer length; (2) the address
paired with the nth yielded item is the starting address plus the lengths
of all previously yielded items, in the `w`-bit address arithmetic;
(3) after the first position where the engine returns the failure sentinel,
nothing further is yielded, regardless of how many bytes remain. -/
theorem c2_iter_sound (ld : List Nat → Nat) (w fuel : Nat) (bytes : List Nat)
    (va : Nat) :
    sumLens (lderunF ld w fuel bytes va) ≤ bytes.length ∧
    (∀ (n : Nat) (item : List Nat × Nat), va < 2 ^ w →
      (lderunF ld w fuel bytes va).get? n = some item →
      item.2 = (va + sumLens ((lderunF ld w fuel bytes va).take n)) % 2 ^ w) ∧
    (ld bytes = 0 → lderunF ld w fuel bytes va = []) :=
  ⟨lderunF_sum_le ld w fuel bytes va,
   fun n item hva hget => lderunF_addr ld w fuel bytes va n item hva hget,
   fun h => lderunF_stop ld w fuel bytes va h⟩

/-- Witness for C2 at the x86 engine on `[inc eax; ret; 0x66]` from
address 0x1000: the second item is `ret` at address 0x1001. -/
theorem c2_iter_sound_w :
    (lderunF lde_int 32 4 [0x40, 0xC3, 0x66] 0x1000).get? 1 = some ([0xC3], 0x1001) ∧
    ([0xC3], (0x1001 : Nat)).2 =
      (0x1000 + sumLens ((lderunF lde_int 32 4 [0x40, 0xC3, 0x66] 0x1000).take 1)) %
        2 ^ 32 :=
  ⟨by decide,
   (c2_iter_sound lde_int 32 4 [0x40, 0xC3, 0x66] 0x1000).2.1 1 ([0xC3], 0x1001)
     (by decide) (by decide)⟩

/-- C3 (amended): self-containment holds for every buffer small enough that
the 32-bit cast of the consumed byte count cannot wrap (length at most
`2 ^ 32 - 24`): if `lde_int b = L > 0` then `lde_int (b.take L) = L`. -/
theorem c3_self_contained (b : List Nat) (L : Nat)
    (hlen : b.length + 24 ≤ 2 ^ 32) (h : lde_int b = L) (hpos : 0 < L) :
    lde_int (b.take L) = L := by
  obtain ⟨ds, ms, rest, hc, htot, hLb⟩ := lde_int_dest b L h hpos
  obtain ⟨pre, hdec, hrep, hcrude, -⟩ := ldeCore_anatomy b ds ms rest hc
  have hblen : b.length = pre.length + rest.length := by rw [hdec]; simp
  have hsub : b.length - rest.length = pre.length := by omega
  have hpre32 : pre.length < 2 ^ 32 := by omega
  have htot' : pre.length + ds + ms = L := by
    rw [hsub, Nat.mod_eq_of_lt hpre32, Nat.mod_eq_of_lt (by omega)] at htot
    exact htot
  have hpreL : pre.length ≤ L := by omega
  have htake : b.take L = pre ++ rest.take (L - pre.length) := by
    rw [hdec, List.take_append_eq_append_take]
    congr 1
    exact List.take_of_length_le hpreL
  rw [htake]
  simp only [lde_int, hrep (rest.take (L - pre.length))]
  have hrt : (rest.take (L - pre.length)).length = L - pre.length := by
    rw [List.length_take]; omega
  have hlt : (pre ++ rest.take (L - pre.length)).length = L := by
    rw [List.length_append, hrt]; omega
  rw [hlt, hrt]
  have hcl : L - (L - pre.length) = pre.length := by omega
  rw [hcl, Nat.mod_eq_of_lt hpre32, htot', Nat.mod_eq_of_lt (by omega)]
  simp

/-- Witness for C3 (amended) at `[0x40]` (`inc eax`): length 1, truncation
to 1 byte reproduces 1. -/
theorem c3_self_contained_w : lde_int (([0x40] : List Nat).take 1) = 1 :=
  c3_self_contained [0x40] 1 (by norm_num) (by decide) (by decide)

/-- Counterexample to C3 as stated, for every byte slice: on a buffer of
`2 ^ 32 + 1` operand-size prefixes followed by `nop`, the consumed count
wraps in the `as u32` cast and the engine returns 2, yet the 2-byte
truncation `[0x66, 0x66]` decodes to the failure sentinel, not 2. -/
theorem c3_self_contained_cex :
    lde_int (List.replicate (2 ^ 32 + 1) 0x66 ++ [0x90]) = 2 ∧
    lde_int ((List.replicate (2 ^ 32 + 1) 0x66 ++ [0x90]).take 2) = 0 := by
  have hpfx : pfxStep (List.replicate (2 ^ 32 + 1) 0x66 ++ [0x90]) 4 4 =
      some (0x90, 2, 4, []) := by
    rw [List.replicate_succ, List.cons_append, pfxStep,
      if_pos (show tblHas TABLE_PFX 0x66 = true from rfl)]
    exact (pfxStep_repl66 (2 ^ 32) [0x90] 4).trans (by decide)
  have hcore : ldeCore (List.replicate (2 ^ 32 + 1) 0x66 ++ [0x90]) =
      some (0, 0, []) :=
    (ldeCore_of_pfx _ _ _ _ _ hpfx).trans (by decide)
  have hlen : (List.replicate (2 ^ 32 + 1) 0x66 ++ [0x90]).length = 2 ^ 32 + 2 := by
    rw [List.length_append, List.length_replicate]
    norm_num
  constructor
  · rw [lde_int_of_core _ _ _ _ hcore, hlen]
    norm_num
  · have htake : (List.replicate (2 ^ 32 + 1) 0x66 ++ [0x90]).take 2 =
        [0x66, 0x66] := by
      rw [List.take_append_of_le_length
        (by rw [List.length_replicate]; norm_num), List.take_replicate]
      rw [show (2 : Nat) ⊓ (2 ^ 32 + 1) = 2 from min_eq_left (by norm_num)]
      rfl
    rw [htake]
    decide

/-- C4: the engine is total and in-bounds: the empty slice decodes to the
sentinel 0; every successful core run reads exactly the in-bounds bytes it
consumed (the buffer splits as consumed ++ rest, and replaying the consumed
bytes followed by anything reproduces the result); and whenever the core
fails — in particular when the bytes run out mid-decode — the engine
returns the sentinel 0. -/
theorem c4_total_bounds :
    lde_int [] = 0 ∧
    (∀ (b : List Nat) (ds ms : Nat) (rest : List Nat),
      ldeCore b = some (ds, ms, rest) →
      ∃ pre, b = pre ++ rest ∧ ∀ l₂, ldeCore (pre ++ l₂) = some (ds, ms, l₂)) ∧
    (∀ b : List Nat, ldeCore b = none → lde_int b = 0) := by
  refine ⟨rfl, fun b ds ms rest h => ?_, fun b h => by simp [lde_int, h]⟩
  obtain ⟨pre, hdec, hrep, -, -⟩ := ldeCore_anatomy b ds ms rest h
  exact ⟨pre, hdec, hrep⟩

/-- Witness for C4: the decomposition at `[0x40]` and the sentinel on the
truncated ModRM opcode `[0xFF]`. -/
theorem c4_total_bounds_w :
    (∃ pre, ([0x40] : List Nat) = pre ++ [] ∧
      ∀ l₂, ldeCore (pre ++ l₂) = some (0, 0, l₂)) ∧
    lde_int [0xFF] = 0 :=
  ⟨c4_total_bounds.2.1 [0x40] 0 0 [] (by decide),
   c4_total_bounds.2.2 [0xFF] (by decide)⟩

/-- C5 (amended): no fixed constant bounds successful lengths — the prefix
loop accepts arbitrarily many prefix bytes and counts them all — but
everything beyond the leading prefix run is bounded: every successful
length is at most the number of leading prefix bytes plus 15. -/
theorem c5_len_bound (b : List Nat) (L : Nat) (hb : ∀ x ∈ b, x < 256)
    (h : lde_int b = L) (hpos : 0 < L) : L ≤ pfxCount b + 15 := by
  obtain ⟨ds, ms, rest, hc, htot, hLb⟩ := lde_int_dest b L h hpos
  obtain ⟨pre, hdec, -, -, htight⟩ := ldeCore_anatomy b ds ms rest hc
  have ht := htight hb
  have hblen : b.length = pre.length + rest.length := by rw [hdec]; simp
  have hsub : b.length - rest.length = pre.length := by omega
  rw [hsub] at htot
  have h1 : L ≤ pre.length % 2 ^ 32 + ds + ms := htot ▸ Nat.mod_le _ _
  have h2 : pre.length % 2 ^ 32 ≤ pre.length := Nat.mod_le _ _
  omega

/-- Witness for C5 (amended) at `[0x90]`: length 1 with no prefixes. -/
theorem c5_len_bound_w : 1 ≤ pfxCount [0x90] + 15 :=
  c5_len_bound [0x90] 1 (by decide) (by decide) (by decide)

/-- Counterexample to C5 as stated: fifteen operand-size prefixes followed
by `nop` decode successfully to 16, exceeding the claimed fixed bound 15. -/
theorem c5_len_bound_cex :
    lde_int (List.replicate 15 0x66 ++ [0x90]) = 16 ∧
    ¬lde_int (List.replicate 15 0x66 ++ [0x90]) ≤ 15 := by decide

/-- C6: consuming the 0x66 prefix sets the default immediate width used by
the later steps to 2 (from the initial 4), and 0x67 sets the default
displacement / absolute-addressing width to 2; concretely the spec's
example `decode(0x67, 0xA1, 0x2A, 0x2A) = 4`, against the unprefixed
5-byte forms, and the prefixed displacement example. -/
theorem c6_size_overrides :
    (∀ (b : List Nat) (d m : Nat), pfxStep (0x66 :: b) d m = pfxStep b 2 m) ∧
    (∀ (b : List Nat) (d m : Nat), pfxStep (0x67 :: b) d m = pfxStep b d 2) ∧
    lde_int [0x67, 0xA1, 0x2A, 0x2A] = 4 ∧
    lde_int [0xA1, 0x2A, 0x2A, 0x2A, 0x2A] = 5 ∧
    lde_int [0x66, 0xB8, 0x2A, 0x2A] = 4 ∧
    lde_int [0xB8, 0x2A, 0x2A, 0x2A, 0x2A] = 5 ∧
    lde_int [0x67, 0x00, 0x80, 0x2A, 0x2A] = 5 :=
  ⟨fun b d m => rfl, fun b d m => rfl, by decide⟩

/-- C7: in the ModRM step, a non-register-direct mode with bottom field
0b100 consumes exactly one extra SIB byte, and when additionally the mode
is 0b00 and the SIB low 3 bits are 0b101 the displacement is 4 bytes;
concretely `decode(0xDD, 0x84, 0x00, 0x2A, 0x2A, 0x2A, 0x2A) = 7`. -/
theorem c7_sib :
    (∀ (mdef mb sib : Nat) (it : List Nat) (ms : Nat) (rest : List Nat),
      ¬mb &&& 0xC0 = 0xC0 → mb &&& 7 = 4 →
      modrmStep mdef (mb :: sib :: it) = some (ms, rest) →
      rest = it ∧ (mb &&& 0xC0 = 0 → sib &&& 7 = 5 → ms = 4)) ∧
    lde_int [0xDD, 0x84, 0x00, 0x2A, 0x2A, 0x2A, 0x2A] = 7 := by
  refine ⟨?_, by decide⟩
  intro mdef mb sib it ms rest hC0 h4 h
  have hx : modrmStep mdef (mb :: sib :: it) =
      some ((if mb &&& 0xC0 == 0 && sib &&& 7 == 5 then 4 else 0) +
        dispSize (mb &&& 0xC0) (mb &&& 7) mdef, it) := by
    simp only [modrmStep]
    rw [if_neg (by simpa using hC0), if_pos (by simpa using h4)]
  rw [hx] at h
  simp only [Option.some.injEq, Prod.mk.injEq] at h
  obtain ⟨hms, hrest⟩ := h
  refine ⟨hrest.symm, fun hz h5 => ?_⟩
  rw [← hms]
  simp [hz, h4, h5, dispSize]

/-- Witness for C7 at ModRM 0x04 (mode 0, rm 4) with SIB 0x05 (base 5):
two bytes consumed and a 4-byte displacement. -/
theorem c7_sib_w :
    modrmStep 4 [0x04, 0x05, 0x2A] = some (4, [0x2A]) ∧
    (([0x2A] : List Nat) = [0x2A] ∧
      ((0x04 : Nat) &&& 0xC0 = 0 → (0x05 : Nat) &&& 7 = 5 → (4 : Nat) = 4)) :=
  ⟨by decide,
   c7_sib.1 4 0x04 0x05 [0x2A] 4 [0x2A] (by decide) (by decide) (by decide)⟩

set_option maxRecDepth 4096 in
/-- Counterexample to C8 as stated: the number of two-byte opcode values
that add the fixed 2-byte extension is not two. -/
theorem c8_twobyte_ext_cex :
    ¬((List.range 256).filter (fun x => bswapFemms x)).length = 2 := by decide

set_option maxRecDepth 4096 in
/-- C8 (amended): exactly seven two-byte opcode byte values add the fixed
2-byte extension — 0x0E (`femms`) and 0xC9 through 0xCE (`bswap` forms) —
as shown by the reachable decodes. -/
theorem c8_twobyte_ext :
    (List.range 256).filter (fun x => bswapFemms x) =
      [0x0E, 0xC9, 0xCA, 0xCB, 0xCC, 0xCD, 0xCE] ∧
    lde_int [0x0F, 0x0E, 0x2A, 0x2A] = 4 ∧
    lde_int [0x0F, 0xC9, 0x2A, 0x2A] = 4 ∧
    lde_int [0x0F, 0xCE, 0x2A, 0x2A] = 4 := by decide

/-- C9: for opcodes 0xF6/0xF7 the immediate presence depends on the reg
field (bits 3-5) of the peeked next byte: with no next byte the engine
fails; with reg = 0 an immediate is added (1 byte for 0xF6, the current
default width for 0xF7), otherwise none; the peeked byte is not consumed
by the dispatch (the remainder still starts with it) and is consumed later
as the ModRM byte, as the concrete lengths show. -/
theorem c9_f6f7_peek :
    (∀ d m : Nat, opcodeStep 0xF6 d m [] = none ∧ opcodeStep 0xF7 d m [] = none) ∧
    (∀ (d m pk : Nat) (t : List Nat),
      opcodeStep 0xF6 d m (pk :: t) =
        some (true, (if pk &&& 0x38 == 0 then 1 else 0), 0, pk :: t)) ∧
    (∀ (d m pk : Nat) (t : List Nat),
      opcodeStep 0xF7 d m (pk :: t) =
        some (true, (if pk &&& 0x38 == 0 then d else 0), 0, pk :: t)) ∧
    lde_int [0xF6] = 0 ∧ lde_int [0xF7] = 0 ∧
    lde_int [0xF6, 0x00, 0x2A] = 3 ∧ lde_int [0xF6, 0xD8] = 2 ∧
    lde_int [0xF7, 0x00, 0x2A, 0x2A, 0x2A, 0x2A] = 6 ∧ lde_int [0xF7, 0xD8] = 2 :=
  ⟨fun d m => ⟨rfl, rfl⟩, fun d m pk t => rfl, fun d m pk t => rfl, by decide⟩

/-- C10: `consume(n)` removes exactly `min n r` bytes from the front of the
remaining slice (never failing for `n > r`), leaving exactly `r - min n r`
bytes, and advances the `w`-bit virtual address by exactly the number of
bytes removed. -/
theorem c10_consume (w : Nat) (bytes : List Nat) (va n : Nat) :
    bytes.take (min n bytes.length) ++ (ldeConsume w bytes va n).1 = bytes ∧
    ((ldeConsume w bytes va n).1).length = bytes.length - min n bytes.length ∧
    (ldeConsume w bytes va n).2 = (va + min n bytes.length) % 2 ^ w := by
  refine ⟨?_, ?_, ?_⟩
  · simp [ldeConsume]
  · simp [ldeConsume]
  · simp only [ldeConsume]
    rw [Nat.add_mod_mod]

end Lde
